import Mathlib

/-!
Verification of the conditional-compilation block parser and policy filter
of MyDatasets/src/scripts/clean_datasets.py.

Lines are modelled as lists of characters.  The functions below are direct
transcriptions of parse_preprocessor_blocks, extract_block and
filter_blocks from the Python source; decodeUtf8Ignore models the text
decoding used by process_file when reading an input file.
-/

/-- A source line, after comment stripping, as a list of characters. -/
abbrev Line := List Char

/-- The whitespace characters recognized by Python str.strip() and by a
whitespace class in an ASCII-compatible regex: space, tab, newline,
carriage return, vertical tab, form feed. -/
def isPySpace (c : Char) : Bool :=
  c == ' ' || c == '\t' || c == '\n' || c == '\r' ||
  c == Char.ofNat 11 || c == Char.ofNat 12

/-- Python word characters (ASCII): letters, digits, underscore. -/
def isWordChar (c : Char) : Bool :=
  c.isAlphanum || c == '_'

/-- Python str.strip(): remove whitespace from both ends of the line. -/
def strip (l : Line) : Line :=
  ((l.dropWhile isPySpace).reverse.dropWhile isPySpace).reverse

/-- leadsWith pat s holds when pat is an initial segment of s; this models
an anchored re.match against a literal pattern. -/
def leadsWith : List Char → List Char → Bool
  | [], _ => true
  | _ :: _, [] => false
  | p :: ps, c :: cs => p == c && leadsWith ps cs

def ifndefTok : List Char := ['#', 'i', 'f', 'n', 'd', 'e', 'f']
def ifdefTok : List Char := ['#', 'i', 'f', 'd', 'e', 'f']
def endifTok : List Char := ['#', 'e', 'n', 'd', 'i', 'f']

/-- Models the regex match of an ifndef directive in the parser loop: the
line must start with the literal directive, then one or more whitespace
characters, then one or more word characters; the captured identifier
(the condition) is returned. -/
def matchIfndef (s : Line) : Option Line :=
  if leadsWith ifndefTok s then
    let rest := s.drop ifndefTok.length
    if (rest.takeWhile isPySpace).isEmpty then none
    else
      let w := (rest.dropWhile isPySpace).takeWhile isWordChar
      if w.isEmpty then none else some w
  else none

/-- Models the regex match of an ifdef directive, as for matchIfndef. -/
def matchIfdef (s : Line) : Option Line :=
  if leadsWith ifdefTok s then
    let rest := s.drop ifdefTok.length
    if (rest.takeWhile isPySpace).isEmpty then none
    else
      let w := (rest.dropWhile isPySpace).takeWhile isWordChar
      if w.isEmpty then none else some w
  else none

/-- The kind of a conditional block: ifndef or ifdef. -/
inductive Kind where
  | ifndef
  | ifdef
deriving DecidableEq, Repr

/-- The two directive checks of the parser loop, in source order:
ifndef first, then ifdef. -/
def openerMatch (s : Line) : Option (Kind × Line) :=
  match matchIfndef s with
  | some c => some (Kind.ifndef, c)
  | none =>
    match matchIfdef s with
    | some c => some (Kind.ifdef, c)
    | none => none

/-- A node of the parse tree built by parse_preprocessor_blocks: either a
plain code line or a conditional block with its parsed contents and the
recorded start and end line indices. -/
inductive Block where
  | code (content : Line) (start_line end_line : Nat)
  | cond (kind : Kind) (condition : Line) (content : List Block)
      (start_line end_line : Nat)

/-- The scan loop of extract_block: rest is the suffix of the line list
starting at absolute index pos; depth is the running nesting depth.
A stripped line starting with an ifndef or ifdef directive increments the
depth; otherwise a stripped line starting with an endif directive
decrements it, and when the depth reaches zero the index of that line is
returned.  The value none means no matching terminator before the end of
the input. -/
def findEnd : List Line → Nat → Int → Option Nat
  | [], _, _ => none
  | l :: rest, pos, depth =>
    let s := strip l
    if leadsWith ifndefTok s || leadsWith ifdefTok s then
      findEnd rest (pos + 1) (depth + 1)
    else if leadsWith endifTok s then
      if depth - 1 = 0 then some pos else findEnd rest (pos + 1) (depth - 1)
    else findEnd rest (pos + 1) depth

/-- Python slice of a list between two natural bounds. -/
def pySlice (l : List α) (a b : Nat) : List α :=
  (l.drop a).take (b - a)

/-- Models extract_block: returns the lines strictly between the opener
and its matching terminator together with the index of that terminator;
if no matching terminator exists, all remaining lines after the opener
together with the index of the last line of input. -/
def extract_block (lines : List Line) (start_idx : Nat) : List Line × Nat :=
  match findEnd (lines.drop start_idx) start_idx 0 with
  | some e => (pySlice lines (start_idx + 1) e, e)
  | none => (lines.drop (start_idx + 1), lines.length - 1)

/-- Fuel-indexed transcription of the parse_preprocessor_blocks loop,
started at cursor i.  The fuel only bounds recursion depth; with fuel
above twice the number of lines it computes the loop exactly (see
parseFrom_eq below). -/
def parseF : Nat → List Line → Nat → List Block
  | 0, _, _ => []
  | fuel + 1, lines, i =>
    if h : i < lines.length then
      let line := lines.get ⟨i, h⟩
      match openerMatch (strip line) with
      | some kc =>
        let be := extract_block lines i
        Block.cond kc.1 kc.2 (parseF fuel be.1 0) i be.2 ::
          parseF fuel lines (be.2 + 1)
      | none =>
        Block.code line i i :: parseF fuel lines (i + 1)
    else []

/-- The parser loop of parse_preprocessor_blocks started at cursor i. -/
def parseFrom (lines : List Line) (i : Nat) : List Block :=
  parseF (2 * lines.length + 1) lines i

/-- Models parse_preprocessor_blocks applied to a line sequence. -/
def parse_preprocessor_blocks (lines : List Line) : List Block :=
  parseFrom lines 0

/-- The dataset label, good or bad, validated by the script entry point
before any file is processed. -/
inductive Label where
  | good
  | bad
deriving DecidableEq, Repr

def OMITGOODtok : Line := "OMITGOOD".toList
def OMITBADtok : Line := "OMITBAD".toList
def WIN32tok : Line := "_WIN32".toList
def WIN64tok : Line := "_WIN64".toList
def INCLUDEMAINtok : Line := "INCLUDEMAIN".toList

mutual

/-- Models filter_blocks: walk the block list, keep code lines verbatim,
and apply the label-specific decision table to conditional blocks,
recursing into the contents of retained blocks. -/
def filter_blocks : List Block → Label → List Line
  | [], _ => []
  | b :: bs, dt => filterBlock b dt ++ filter_blocks bs dt

/-- The contribution of a single block to the output of filter_blocks. -/
def filterBlock : Block → Label → List Line
  | Block.code c _ _, _ => [c]
  | Block.cond Kind.ifndef condition ch _ _, Label.bad =>
    if condition = OMITGOODtok then []
    else if condition = OMITBADtok then filter_blocks ch Label.bad
    else if condition = WIN32tok ∨ condition = WIN64tok then []
    else filter_blocks ch Label.bad
  | Block.cond Kind.ifndef condition ch _ _, Label.good =>
    if condition = OMITBADtok then []
    else if condition = OMITGOODtok then filter_blocks ch Label.good
    else if condition = WIN32tok ∨ condition = WIN64tok then []
    else filter_blocks ch Label.good
  | Block.cond Kind.ifdef condition ch _ _, dt =>
    if condition = INCLUDEMAINtok then filter_blocks ch dt
    else filter_blocks ch dt

end

mutual

/-- Re-linearization of a parse tree against the line slice it was parsed
from: code lines are emitted verbatim; for a conditional block, the
original line at the recorded start index is emitted, then the rebuilt
children (whose recorded indices refer to the line slice of that block),
then, when the block has a matching terminator, the original line at the
recorded end index. -/
def rebuild (lines : List Line) : List Block → List Line
  | [] => []
  | b :: bs => rebuildNode lines b ++ rebuild lines bs

/-- The lines contributed by a single node in rebuild. -/
def rebuildNode (lines : List Line) : Block → List Line
  | Block.code c _ _ => [c]
  | Block.cond _ _ ch s e =>
    match findEnd (lines.drop s) s 0 with
    | some _ =>
      lines.getD s [] :: (rebuild (pySlice lines (s + 1) e) ch ++ [lines.getD e []])
    | none => lines.getD s [] :: rebuild (lines.drop (s + 1)) ch

end

/-- The recorded start index of a node. -/
def blockStart : Block → Nat
  | Block.code _ s _ => s
  | Block.cond _ _ _ s _ => s

/-- The recorded end index of a node. -/
def blockEnd : Block → Nat
  | Block.code _ _ e => e
  | Block.cond _ _ _ _ e => e

/-- The nodes of one sibling list, in order, occupy consecutive disjoint
index ranges starting at i: each node starts exactly where the cursor
stood and ends no earlier than it starts. -/
def chainedFrom : Nat → List Block → Prop
  | _, [] => True
  | i, b :: bs => blockStart b = i ∧ i ≤ blockEnd b ∧ chainedFrom (blockEnd b + 1) bs

/-- Two nodes occupy non-overlapping inclusive index ranges. -/
def disjointRanges (a b : Block) : Prop :=
  blockEnd a < blockStart b ∨ blockEnd b < blockStart a

/-- One sibling list is well-nested: pairwise disjoint ranges, and the
start index of every node is at most its end index. -/
def levelOk (bs : List Block) : Prop :=
  bs.Pairwise disjointRanges ∧ ∀ b ∈ bs, blockStart b ≤ blockEnd b

/-- Every sibling list of conditional-block children, at every depth,
is well-nested. -/
def treeOk : List Block → Prop
  | [] => True
  | Block.code _ _ _ :: bs => treeOk bs
  | Block.cond _ _ ch _ _ :: bs => (levelOk ch ∧ treeOk ch) ∧ treeOk bs

mutual

/-- All code-line contents anywhere in the tree. -/
def allCode : List Block → List Line
  | [] => []
  | b :: bs => allCodeB b ++ allCode bs

/-- The code-line contents anywhere inside one node. -/
def allCodeB : Block → List Line
  | Block.code x _ _ => [x]
  | Block.cond _ _ ch _ _ => allCode ch

end

mutual

/-- Code-line contents occurring at a position not nested inside any
ifndef block whose condition is c. -/
def outsideCode (c : Line) : List Block → List Line
  | [] => []
  | b :: bs => outsideCodeB c b ++ outsideCode c bs

/-- The contribution of one node to outsideCode. -/
def outsideCodeB (c : Line) : Block → List Line
  | Block.code x _ _ => [x]
  | Block.cond Kind.ifndef c2 ch _ _ => if c2 = c then [] else outsideCode c ch
  | Block.cond Kind.ifdef _ ch _ _ => outsideCode c ch

end

mutual

/-- Code-line contents occurring at a position nested inside some ifndef
block whose condition is c. -/
def insideCode (c : Line) : List Block → List Line
  | [] => []
  | b :: bs => insideCodeB c b ++ insideCode c bs

/-- The contribution of one node to insideCode. -/
def insideCodeB (c : Line) : Block → List Line
  | Block.code _ _ _ => []
  | Block.cond Kind.ifndef c2 ch _ _ =>
    if c2 = c then allCode ch else insideCode c ch
  | Block.cond Kind.ifdef _ ch _ _ => insideCode c ch

end

mutual

/-- Every conditional block in the tree has its condition among the
given identifiers. -/
def condsAmong (allowed : List Line) : List Block → Bool
  | [] => true
  | b :: bs => condsAmongB allowed b && condsAmong allowed bs

/-- The check of condsAmong for one node. -/
def condsAmongB (allowed : List Line) : Block → Bool
  | Block.code _ _ _ => true
  | Block.cond _ c ch _ _ => allowed.contains c && condsAmong allowed ch

end

/-- A UTF-8 continuation byte. -/
def isCont (b : Nat) : Bool := 128 ≤ b && b ≤ 191

/-- Valid first-continuation ranges for a three-byte UTF-8 lead,
excluding overlong forms and surrogates. -/
def contOk3 (b b1 : Nat) : Bool :=
  if b = 224 then 160 ≤ b1 && b1 ≤ 191
  else if b = 237 then 128 ≤ b1 && b1 ≤ 159
  else isCont b1

/-- Valid first-continuation ranges for a four-byte UTF-8 lead,
excluding overlong forms and values beyond the last code point. -/
def contOk4 (b b1 : Nat) : Bool :=
  if b = 240 then 144 ≤ b1 && b1 ≤ 191
  else if b = 244 then 128 ≤ b1 && b1 ≤ 143
  else isCont b1

/-- Fuel-indexed UTF-8 decoding with the ignore error handler: valid
sequences decode to their code points; a byte that cannot begin or
continue a valid sequence is skipped, together with any valid prefix of
the sequence consumed before it, and decoding continues at the offending
byte.  The fuel decreases by one per step and each step consumes at least
one byte, so fuel equal to the byte count always suffices. -/
def decodeF : Nat → List Nat → List Char
  | 0, _ => []
  | _ + 1, [] => []
  | fuel + 1, b :: bs =>
    if b < 128 then Char.ofNat b :: decodeF fuel bs
    else if 194 ≤ b && b ≤ 223 then
      match bs with
      | [] => []
      | b1 :: rest =>
        if isCont b1 then
          Char.ofNat ((b - 192) * 64 + (b1 - 128)) :: decodeF fuel rest
        else decodeF fuel bs
    else if 224 ≤ b && b ≤ 239 then
      match bs with
      | [] => []
      | b1 :: rest =>
        if contOk3 b b1 then
          match rest with
          | [] => []
          | b2 :: rest2 =>
            if isCont b2 then
              Char.ofNat ((b - 224) * 4096 + (b1 - 128) * 64 + (b2 - 128)) ::
                decodeF fuel rest2
            else decodeF fuel rest
        else decodeF fuel bs
    else if 240 ≤ b && b ≤ 244 then
      match bs with
      | [] => []
      | b1 :: rest =>
        if contOk4 b b1 then
          match rest with
          | [] => []
          | b2 :: rest2 =>
            if isCont b2 then
              match rest2 with
              | [] => []
              | b3 :: rest3 =>
                if isCont b3 then
                  Char.ofNat ((b - 240) * 262144 + (b1 - 128) * 4096 +
                      (b2 - 128) * 64 + (b3 - 128)) :: decodeF fuel rest3
                else decodeF fuel rest2
            else decodeF fuel rest
        else decodeF fuel bs
    else decodeF fuel bs

/-- Models the text decoding performed by process_file when it opens an
input source file with encoding utf-8 and the errors set to ignore
(CPython UTF-8 decoder with the ignore error handler): undecodable bytes
are dropped from the decoded text and never raise an error. -/
def decodeUtf8Ignore (bytes : List Nat) : List Char :=
  decodeF bytes.length bytes

/-- The two-block scenario input from the specification. -/
def c1Input : List Line :=
  ["#ifndef OMITBAD".toList, "int x = strcpy(a,b);".toList, "#endif".toList,
   "#ifndef OMITGOOD".toList, "int x = strncpy(a,b,n);".toList, "#endif".toList]

/-- An INCLUDEMAIN block containing a nested OMITGOOD block. -/
def c2Input : List Line :=
  ["#ifdef INCLUDEMAIN".toList, "int main()".toList, "#ifndef OMITGOOD".toList,
   "  printGood();".toList, "#endif".toList, "  return 0;".toList, "#endif".toList]

/-- Two nested ifdef blocks; the inner block opens at global line 1 and
closes at global line 3. -/
def c5Input : List Line :=
  ["#ifdef A".toList, "#ifdef B".toList, "x".toList, "#endif".toList, "#endif".toList]

/-- An opener with no matching terminator before the end of input. -/
def c7Input : List Line := ["#ifndef FOO".toList, "x".toList]

/-- The same line text occurs inside an OMITGOOD block and inside an
OMITBAD block. -/
def c8Input : List Line :=
  ["#ifndef OMITGOOD".toList, "x".toList, "#endif".toList,
   "#ifndef OMITBAD".toList, "x".toList, "#endif".toList]

/-- A stray terminator line at the top level, not preceded by any
unmatched opener. -/
def c10Input : List Line := ["#endif".toList, "y".toList]

theorem findEnd_bounds : ∀ (rest : List Line) (pos : Nat) (d : Int) (e : Nat),
    findEnd rest pos d = some e → pos ≤ e ∧ e < pos + rest.length := by
  intro rest
  induction rest with
  | nil => intro pos d e h; simp [findEnd] at h
  | cons l rest ih =>
    intro pos d e h
    simp only [findEnd] at h
    split at h
    · have := ih (pos + 1) _ _ h
      simp only [List.length_cons]
      omega
    · split at h
      · split at h
        · cases h
          simp only [List.length_cons]
          omega
        · have := ih (pos + 1) _ _ h
          simp only [List.length_cons]
          omega
      · have := ih (pos + 1) _ _ h
        simp only [List.length_cons]
        omega

theorem extract_block_snd_ge (lines : List Line) (i : Nat) (h : i < lines.length) :
    i ≤ (extract_block lines i).2 := by
  unfold extract_block
  cases hfe : findEnd (lines.drop i) i 0 with
  | some e =>
    have := findEnd_bounds _ _ _ _ hfe
    simp only
    omega
  | none =>
    simp only
    omega

theorem extract_block_fst_len (lines : List Line) (i : Nat) :
    (extract_block lines i).1.length ≤ lines.length - (i + 1) := by
  unfold extract_block
  cases hfe : findEnd (lines.drop i) i 0 with
  | some e =>
    simp only [pySlice]
    have h1 : ((lines.drop (i+1)).take (e - (i+1))).length
        = min (e - (i+1)) (lines.drop (i+1)).length :=
      List.length_take _ _
    have h2 : (lines.drop (i+1)).length = lines.length - (i+1) := List.length_drop _ lines
    omega
  | none =>
    simp only
    have h2 : (lines.drop (i+1)).length = lines.length - (i+1) := List.length_drop _ lines
    omega

theorem parseF_irrel : ∀ (f f' : Nat) (lines : List Line) (i : Nat),
    2 * lines.length - i < f → 2 * lines.length - i < f' →
    parseF f lines i = parseF f' lines i := by
  intro f
  induction f with
  | zero => intro f' lines i hf _; omega
  | succ g ih =>
    intro f' lines i hf hf'
    match f' with
    | 0 => omega
    | g' + 1 =>
      simp only [parseF]
      by_cases h : i < lines.length
      · simp only [dif_pos h]
        have hb1 := extract_block_fst_len lines i
        have hb2 := extract_block_snd_ge lines i h
        cases hm : openerMatch (strip (lines.get ⟨i, h⟩)) with
        | some kc =>
          simp only [hm]
          rw [ih g' (extract_block lines i).1 0 (by omega) (by omega),
              ih g' lines ((extract_block lines i).2 + 1) (by omega) (by omega)]
        | none =>
          simp only [hm]
          rw [ih g' lines (i + 1) (by omega) (by omega)]
      · simp only [dif_neg h]

theorem parseFrom_eq (lines : List Line) (i : Nat) :
    parseFrom lines i =
      if h : i < lines.length then
        match openerMatch (strip (lines.get ⟨i, h⟩)) with
        | some kc =>
          Block.cond kc.1 kc.2 (parseFrom (extract_block lines i).1 0) i
              (extract_block lines i).2 ::
            parseFrom lines ((extract_block lines i).2 + 1)
        | none => Block.code (lines.get ⟨i, h⟩) i i :: parseFrom lines (i + 1)
      else [] := by
  by_cases h : i < lines.length
  · simp only [dif_pos h]
    have hb1 := extract_block_fst_len lines i
    have hb2 := extract_block_snd_ge lines i h
    conv_lhs => rw [parseFrom]
    rw [show (2 * lines.length + 1) = (2 * lines.length) + 1 from rfl]
    simp only [parseF, dif_pos h]
    cases hm : openerMatch (strip (lines.get ⟨i, h⟩)) with
    | some kc =>
      simp only [hm]
      rw [parseF_irrel (2 * lines.length) (2 * (extract_block lines i).1.length + 1)
            (extract_block lines i).1 0 (by omega) (by omega)]
      rw [parseF_irrel (2 * lines.length) (2 * lines.length + 1)
            lines ((extract_block lines i).2 + 1) (by omega) (by omega)]
      rfl
    | none =>
      simp only [hm]
      rw [parseF_irrel (2 * lines.length) (2 * lines.length + 1)
            lines (i + 1) (by omega) (by omega)]
      rfl
  · simp only [dif_neg h]
    rw [parseFrom]
    cases hl : 2 * lines.length + 1 with
    | zero => simp [parseF]
    | succ g => simp only [parseF, dif_neg h]

theorem getD_eq_get (lines : List Line) (i : Nat) (h : i < lines.length) :
    lines.getD i [] = lines.get ⟨i, h⟩ := by
  simp [List.getD_eq_getElem?_getD, List.getElem?_eq_getElem h]

theorem parseFrom_stop (lines : List Line) (i : Nat) (h : lines.length ≤ i) :
    parseFrom lines i = [] := by
  rw [parseFrom_eq, dif_neg (by omega)]

theorem parseFrom_opener (lines : List Line) (i : Nat) (h : i < lines.length)
    (k : Kind) (c : Line)
    (hm : openerMatch (strip (lines.getD i [])) = some (k, c)) :
    parseFrom lines i =
      Block.cond k c (parseFrom (extract_block lines i).1 0) i
          (extract_block lines i).2 ::
        parseFrom lines ((extract_block lines i).2 + 1) := by
  rw [parseFrom_eq, dif_pos h]
  rw [getD_eq_get lines i h] at hm
  simp only [hm]

theorem parseFrom_code (lines : List Line) (i : Nat) (h : i < lines.length)
    (hm : openerMatch (strip (lines.getD i [])) = none) :
    parseFrom lines i = Block.code (lines.getD i []) i i :: parseFrom lines (i + 1) := by
  rw [parseFrom_eq, dif_pos h]
  rw [getD_eq_get lines i h] at hm
  simp only [hm]
  rw [getD_eq_get lines i h]

theorem parseFrom_opener2 (lines : List Line) (i : Nat) (h : i < lines.length)
    (k : Kind) (c : Line) (body : List Line) (e : Nat)
    (hm : openerMatch (strip (lines.getD i [])) = some (k, c))
    (hex : extract_block lines i = (body, e)) :
    parseFrom lines i =
      Block.cond k c (parseFrom body 0) i e :: parseFrom lines (e + 1) := by
  rw [parseFrom_opener lines i h k c hm, hex]

theorem parse_measure_rec (P : List Line → Nat → Prop)
    (step : ∀ lines i,
      (∀ lines2 i2, 2 * lines2.length - i2 < 2 * lines.length - i → P lines2 i2) →
      P lines i) :
    ∀ lines i, P lines i := by
  have key : ∀ (n : Nat) (lines : List Line) (i : Nat),
      2 * lines.length - i ≤ n → P lines i := by
    intro n
    induction n with
    | zero =>
      intro lines i h
      exact step lines i (fun lines2 i2 h2 => absurd h2 (by omega))
    | succ m ih =>
      intro lines i h
      exact step lines i (fun lines2 i2 h2 => ih lines2 i2 (by omega))
  intro lines i
  exact key (2 * lines.length - i) lines i (le_refl _)

theorem openerMatch_leads (s : Line) (kc : Kind × Line)
    (h : openerMatch s = some kc) :
    (leadsWith ifndefTok s || leadsWith ifdefTok s) = true := by
  unfold openerMatch at h
  cases h1 : matchIfndef s with
  | some c =>
    unfold matchIfndef at h1
    split at h1
    · simp_all
    · simp_all
  | none =>
    rw [h1] at h
    cases h2 : matchIfdef s with
    | some c =>
      unfold matchIfdef at h2
      split at h2
      · simp_all
      · simp_all
    | none => simp_all

theorem findEnd_opener_gt (lines : List Line) (i : Nat) (e : Nat)
    (h : i < lines.length)
    (hop : (leadsWith ifndefTok (strip (lines.getD i [])) ||
            leadsWith ifdefTok (strip (lines.getD i []))) = true)
    (hfe : findEnd (lines.drop i) i 0 = some e) :
    i + 1 ≤ e := by
  rw [List.drop_eq_getElem_cons h] at hfe
  rw [getD_eq_get lines i h] at hop
  simp only [findEnd] at hfe
  rw [if_pos] at hfe
  · exact (findEnd_bounds _ _ _ _ hfe).1
  · exact hop

theorem rebuild_parseFrom : ∀ (lines : List Line) (i : Nat),
    rebuild lines (parseFrom lines i) = lines.drop i := by
  apply parse_measure_rec (fun lines i => rebuild lines (parseFrom lines i) = lines.drop i)
  intro lines i ih
  by_cases h : i < lines.length
  · cases hm : openerMatch (strip (lines.getD i [])) with
    | none =>
      rw [parseFrom_code lines i h hm]
      rw [rebuild, rebuildNode]
      rw [ih lines (i + 1) (by omega)]
      rw [List.drop_eq_getElem_cons h, getD_eq_get lines i h]
      rfl
    | some kc =>
      obtain ⟨k, c⟩ := kc
      cases hfe : findEnd (lines.drop i) i 0 with
      | some e0 =>
        have hee : extract_block lines i = (pySlice lines (i + 1) e0, e0) := by
          unfold extract_block
          rw [hfe]
        have hgt : i + 1 ≤ e0 :=
          findEnd_opener_gt lines i e0 h (openerMatch_leads _ _ hm) hfe
        have he0len : e0 < lines.length := by
          have hb := (findEnd_bounds _ _ _ _ hfe).2
          have hd : (lines.drop i).length = lines.length - i := List.length_drop i lines
          omega
        rw [parseFrom_opener2 lines i h k c _ _ hm hee]
        rw [rebuild, rebuildNode]
        simp only [hfe]
        have hlenbody : (pySlice lines (i + 1) e0).length ≤ lines.length - (i + 1) := by
          simp only [pySlice]
          have h1 := List.length_take (e0 - (i + 1)) (lines.drop (i + 1))
          have h2 := List.length_drop (i + 1) lines
          omega
        rw [ih (pySlice lines (i + 1) e0) 0 (by omega)]
        rw [ih lines (e0 + 1) (by omega)]
        rw [List.drop_zero]
        have key : lines.drop i =
            lines[i] :: (pySlice lines (i + 1) e0 ++ lines[e0] :: lines.drop (e0 + 1)) := by
          conv_lhs => rw [List.drop_eq_getElem_cons h]
          congr 1
          conv_lhs => rw [← List.take_append_drop (e0 - (i + 1)) (lines.drop (i + 1))]
          congr 1
          rw [List.drop_drop]
          have harith : i + 1 + (e0 - (i + 1)) = e0 := by omega
          rw [harith, List.drop_eq_getElem_cons he0len]
        rw [key, getD_eq_get lines i h, getD_eq_get lines e0 he0len]
        simp [List.cons_append, List.append_assoc]
      | none =>
        have hee : extract_block lines i = (lines.drop (i + 1), lines.length - 1) := by
          unfold extract_block
          rw [hfe]
        rw [parseFrom_opener2 lines i h k c _ _ hm hee]
        have hstop : lines.length - 1 + 1 = lines.length := by omega
        rw [hstop, parseFrom_stop lines lines.length (le_refl _)]
        rw [rebuild, rebuildNode]
        simp only [hfe]
        have hlend : (lines.drop (i + 1)).length = lines.length - (i + 1) :=
          List.length_drop _ lines
        rw [ih (lines.drop (i + 1)) 0 (by omega)]
        rw [List.drop_zero, rebuild, List.append_nil]
        rw [List.drop_eq_getElem_cons h, getD_eq_get lines i h]
        rfl
  · rw [parseFrom_stop lines i (by omega), rebuild]
    rw [List.drop_eq_nil_of_le (by omega)]

theorem chainedFrom_mono : ∀ (i : Nat) (bs : List Block),
    chainedFrom i bs → ∀ b ∈ bs, i ≤ blockStart b ∧ blockStart b ≤ blockEnd b := by
  intro i bs
  induction bs generalizing i with
  | nil => intro _ b hb; cases hb
  | cons a bs ih =>
    intro h b hb
    obtain ⟨h1, h2, h3⟩ := h
    cases hb with
    | head => omega
    | tail _ hb =>
      have := ih (blockEnd a + 1) h3 b hb
      omega

theorem chainedFrom_levelOk : ∀ (i : Nat) (bs : List Block),
    chainedFrom i bs → levelOk bs := by
  intro i bs
  induction bs generalizing i with
  | nil => intro _; exact ⟨List.Pairwise.nil, fun b hb => absurd hb (List.not_mem_nil b)⟩
  | cons a bs ih =>
    intro h
    obtain ⟨h1, h2, h3⟩ := h
    have hlev := ih (blockEnd a + 1) h3
    refine ⟨List.Pairwise.cons ?_ hlev.1, ?_⟩
    · intro b hb
      have := chainedFrom_mono _ _ h3 b hb
      unfold disjointRanges
      omega
    · intro b hb
      cases hb with
      | head => omega
      | tail _ hb => exact hlev.2 b hb

theorem parseFrom_chained : ∀ (lines : List Line) (i : Nat),
    chainedFrom i (parseFrom lines i) ∧ treeOk (parseFrom lines i) := by
  apply parse_measure_rec
    (fun lines i => chainedFrom i (parseFrom lines i) ∧ treeOk (parseFrom lines i))
  intro lines i ih
  by_cases h : i < lines.length
  · cases hm : openerMatch (strip (lines.getD i [])) with
    | none =>
      rw [parseFrom_code lines i h hm]
      have hnext := ih lines (i + 1) (by omega)
      simp only [chainedFrom, treeOk, blockStart, blockEnd]
      exact ⟨⟨trivial, le_refl i, hnext.1⟩, hnext.2⟩
    | some kc =>
      obtain ⟨k, c⟩ := kc
      have hb1 := extract_block_fst_len lines i
      have hb2 := extract_block_snd_ge lines i h
      rw [parseFrom_opener lines i h k c hm]
      have hbody := ih (extract_block lines i).1 0 (by omega)
      have hnext := ih lines ((extract_block lines i).2 + 1) (by omega)
      simp only [chainedFrom, treeOk, blockStart, blockEnd]
      exact ⟨⟨trivial, hb2, hnext.1⟩,
        ⟨⟨chainedFrom_levelOk 0 _ hbody.1, hbody.2⟩, hnext.2⟩⟩
  · rw [parseFrom_stop lines i (by omega)]
    simp only [chainedFrom, treeOk]
    exact ⟨trivial, trivial⟩

theorem filter_append : ∀ (as bs : List Block) (dt : Label),
    filter_blocks (as ++ bs) dt = filter_blocks as dt ++ filter_blocks bs dt := by
  intro as bs dt
  induction as with
  | nil => rfl
  | cons a as ih =>
    simp only [List.cons_append, filter_blocks]
    rw [show as.append bs = as ++ bs from rfl, ih, List.append_assoc]

theorem endif_not_opener (s : Line) (he : leadsWith endifTok s = true) :
    openerMatch s = none := by
  match s with
  | [] => simp [endifTok, leadsWith] at he
  | [c0] => simp [endifTok, leadsWith] at he
  | c0 :: c1 :: s2 =>
    simp only [endifTok, leadsWith, Bool.and_eq_true, beq_iff_eq] at he
    obtain ⟨h0, h1, _⟩ := he
    subst h0; subst h1
    have hn : leadsWith ifndefTok ('#' :: 'e' :: s2) = false := rfl
    have hd : leadsWith ifdefTok ('#' :: 'e' :: s2) = false := rfl
    simp [openerMatch, matchIfndef, matchIfdef, hn, hd]

theorem filter_bad_outside : ∀ (bs : List Block) (l : Line),
    l ∈ filter_blocks bs Label.bad → l ∈ outsideCode OMITGOODtok bs
  | [], l, h => by simp [filter_blocks] at h
  | Block.code x s e :: bs, l, h => by
    simp only [filter_blocks, filterBlock, List.singleton_append, List.mem_cons] at h
    simp only [outsideCode, outsideCodeB, List.singleton_append, List.mem_cons]
    cases h with
    | inl h => exact Or.inl h
    | inr h => exact Or.inr (filter_bad_outside bs l h)
  | Block.cond Kind.ifndef c2 ch s e :: bs, l, h => by
    simp only [filter_blocks, List.mem_append] at h
    simp only [outsideCode, outsideCodeB, List.mem_append]
    cases h with
    | inr h => exact Or.inr (filter_bad_outside bs l h)
    | inl h =>
      left
      by_cases hc : c2 = OMITGOODtok
      · subst hc
        simp only [filterBlock, if_true] at h
        simp at h
      · rw [if_neg hc]
        have hch : l ∈ filter_blocks ch Label.bad := by
          simp only [filterBlock] at h
          rw [if_neg hc] at h
          split at h
          · exact h
          · split at h
            · cases h
            · exact h
        exact filter_bad_outside ch l hch
  | Block.cond Kind.ifdef c2 ch s e :: bs, l, h => by
    simp only [filter_blocks, List.mem_append] at h
    simp only [outsideCode, outsideCodeB, List.mem_append]
    cases h with
    | inr h => exact Or.inr (filter_bad_outside bs l h)
    | inl h =>
      left
      have hch : l ∈ filter_blocks ch Label.bad := by
        simp only [filterBlock] at h
        split at h
        · exact h
        · exact h
      exact filter_bad_outside ch l hch

theorem filter_good_outside : ∀ (bs : List Block) (l : Line),
    l ∈ filter_blocks bs Label.good → l ∈ outsideCode OMITBADtok bs
  | [], l, h => by simp [filter_blocks] at h
  | Block.code x s e :: bs, l, h => by
    simp only [filter_blocks, filterBlock, List.singleton_append, List.mem_cons] at h
    simp only [outsideCode, outsideCodeB, List.singleton_append, List.mem_cons]
    cases h with
    | inl h => exact Or.inl h
    | inr h => exact Or.inr (filter_good_outside bs l h)
  | Block.cond Kind.ifndef c2 ch s e :: bs, l, h => by
    simp only [filter_blocks, List.mem_append] at h
    simp only [outsideCode, outsideCodeB, List.mem_append]
    cases h with
    | inr h => exact Or.inr (filter_good_outside bs l h)
    | inl h =>
      left
      by_cases hc : c2 = OMITBADtok
      · subst hc
        simp only [filterBlock, if_true] at h
        simp at h
      · rw [if_neg hc]
        have hch : l ∈ filter_blocks ch Label.good := by
          simp only [filterBlock] at h
          rw [if_neg hc] at h
          split at h
          · exact h
          · split at h
            · cases h
            · exact h
        exact filter_good_outside ch l hch
  | Block.cond Kind.ifdef c2 ch s e :: bs, l, h => by
    simp only [filter_blocks, List.mem_append] at h
    simp only [outsideCode, outsideCodeB, List.mem_append]
    cases h with
    | inr h => exact Or.inr (filter_good_outside bs l h)
    | inl h =>
      left
      have hch : l ∈ filter_blocks ch Label.good := by
        simp only [filterBlock] at h
        split at h
        · exact h
        · exact h
      exact filter_good_outside ch l hch

/-- Claim C1: on the two-block scenario input, the parse-then-filter
pipeline yields under label bad exactly the strcpy line and under label
good exactly the strncpy line; in general, in any block list and under
label bad, an ifndef OMITGOOD block contributes zero lines and an ifndef
OMITBAD block contributes exactly its recursively filtered children (the
directive and terminator lines were never part of children and are
discarded), and symmetrically under label good. -/
theorem c1_omit_policy :
    (filter_blocks (parse_preprocessor_blocks c1Input) Label.bad
        = ["int x = strcpy(a,b);".toList] ∧
     filter_blocks (parse_preprocessor_blocks c1Input) Label.good
        = ["int x = strncpy(a,b,n);".toList]) ∧
    ∀ (pre post ch : List Block) (s e : Nat),
      (filter_blocks (pre ++ Block.cond Kind.ifndef OMITGOODtok ch s e :: post) Label.bad
          = filter_blocks pre Label.bad ++ filter_blocks post Label.bad) ∧
      (filter_blocks (pre ++ Block.cond Kind.ifndef OMITBADtok ch s e :: post) Label.bad
          = filter_blocks pre Label.bad
              ++ (filter_blocks ch Label.bad ++ filter_blocks post Label.bad)) ∧
      (filter_blocks (pre ++ Block.cond Kind.ifndef OMITBADtok ch s e :: post) Label.good
          = filter_blocks pre Label.good ++ filter_blocks post Label.good) ∧
      (filter_blocks (pre ++ Block.cond Kind.ifndef OMITGOODtok ch s e :: post) Label.good
          = filter_blocks pre Label.good
              ++ (filter_blocks ch Label.good ++ filter_blocks post Label.good)) := by
  refine ⟨⟨by decide, by decide⟩, ?_⟩
  intro pre post ch s e
  exact ⟨by rw [filter_append]; rfl, by rw [filter_append]; rfl,
         by rw [filter_append]; rfl, by rw [filter_append]; rfl⟩

/-- Claim C2: an ifdef INCLUDEMAIN block containing a nested ifndef
OMITGOOD block, filtered under label bad, drops every line of the nested
block and keeps the recursively filtered remaining contents, with no
directive marker of either block in the output; the nested blocks are
handled by the same decision table under the same label.  The concrete
scenario shows the end-to-end pipeline output. -/
theorem c2_includemain_nested :
    (∀ (ch1 ch2 chOG : List Block) (s e s2 e2 : Nat),
      filter_blocks
          [Block.cond Kind.ifdef INCLUDEMAINtok
            (ch1 ++ Block.cond Kind.ifndef OMITGOODtok chOG s2 e2 :: ch2) s e]
          Label.bad
        = filter_blocks ch1 Label.bad ++ filter_blocks ch2 Label.bad) ∧
    filter_blocks (parse_preprocessor_blocks c2Input) Label.bad
      = ["int main()".toList, "  return 0;".toList] := by
  refine ⟨?_, by decide⟩
  intro ch1 ch2 chOG s e s2 e2
  show filter_blocks (ch1 ++ Block.cond Kind.ifndef OMITGOODtok chOG s2 e2 :: ch2)
      Label.bad ++ [] = _
  rw [filter_append, List.append_nil]
  rfl

/-- Claim C3: an ifndef block whose condition is _WIN32 or _WIN64
contributes zero lines to the filter output under both labels, wherever
it occurs in a block list; the block and all its descendants are
discarded entirely. -/
theorem c3_platform_exclusion (dt : Label) (pre post ch : List Block) (s e : Nat) :
    (filter_blocks (pre ++ Block.cond Kind.ifndef WIN32tok ch s e :: post) dt
        = filter_blocks pre dt ++ filter_blocks post dt) ∧
    (filter_blocks (pre ++ Block.cond Kind.ifndef WIN64tok ch s e :: post) dt
        = filter_blocks pre dt ++ filter_blocks post dt) := by
  cases dt
  · exact ⟨by rw [filter_append]; rfl, by rw [filter_append]; rfl⟩
  · exact ⟨by rw [filter_append]; rfl, by rw [filter_append]; rfl⟩

/-- Claim C4: for every input line sequence, rebuilding the parse tree —
concatenating all code-line contents in tree order with the directive
line of every conditional block reattached at its recorded start index
and, when a matching terminator exists, the terminator line at its
recorded end index — reproduces the original line sequence exactly,
including inputs whose final block has no matching terminator. -/
theorem c4_parser_coverage (lines : List Line) :
    rebuild lines (parse_preprocessor_blocks lines) = lines := by
  have h := rebuild_parseFrom lines 0
  rw [List.drop_zero] at h
  exact h

/-- Claim C5 evaluation: on the nested input, the nested block records
start index 0 and end index 2, positions relative to the line slice of
the enclosing block, while the opening directive of that nested block
sits at index 1 of the full file and its terminator at index 3; the
recorded indices of nested blocks are therefore not global file
positions. -/
theorem c5_nested_indices :
    parse_preprocessor_blocks c5Input
      = [Block.cond Kind.ifdef ['A']
          [Block.cond Kind.ifdef ['B'] [Block.code ['x'] 0 0] 0 2] 0 4] ∧
    c5Input.getD 1 [] = "#ifdef B".toList :=
  ⟨rfl, rfl⟩

/-- Claim C6: in the parser output, the top-level sibling list and every
nested sibling list of children are well-nested: sibling nodes occupy
pairwise disjoint inclusive index ranges, and every node has start index
at most end index.  levelOk states this for the top level and treeOk
propagates it to the children of every conditional block at every
depth. -/
theorem c6_well_nested (lines : List Line) :
    levelOk (parse_preprocessor_blocks lines) ∧
    treeOk (parse_preprocessor_blocks lines) := by
  have h := parseFrom_chained lines 0
  exact ⟨chainedFrom_levelOk 0 _ h.1, h.2⟩

/-- Claim C7: when an opener at cursor i has no matching terminator
before the end of input, parsing does not fail: the result is a single
block whose children are the recursive parse of all lines after the
opener, whose end index is the index of the last input line, and nothing
follows it (the cursor advanced to the end of input). -/
theorem c7_unterminated_recovery (lines : List Line) (i : Nat) (k : Kind) (c : Line)
    (h : i < lines.length)
    (hm : openerMatch (strip (lines.getD i [])) = some (k, c))
    (hfe : findEnd (lines.drop i) i 0 = none) :
    parseFrom lines i =
      [Block.cond k c (parseFrom (lines.drop (i + 1)) 0) i (lines.length - 1)] := by
  have hee : extract_block lines i = (lines.drop (i + 1), lines.length - 1) := by
    unfold extract_block
    rw [hfe]
  rw [parseFrom_opener2 lines i h k c _ _ hm hee]
  have hlen : lines.length - 1 + 1 = lines.length := by omega
  rw [hlen, parseFrom_stop lines lines.length (le_refl _)]

/-- Witness for claim C7 at a concrete unterminated input. -/
theorem c7_unterminated_recovery_witness :
    (0 < c7Input.length ∧
     openerMatch (strip (c7Input.getD 0 [])) = some (Kind.ifndef, "FOO".toList) ∧
     findEnd (c7Input.drop 0) 0 0 = none) ∧
    parseFrom c7Input 0
      = [Block.cond Kind.ifndef "FOO".toList (parseFrom (c7Input.drop 1) 0) 0
          (c7Input.length - 1)] :=
  ⟨⟨by decide, by decide, by decide⟩,
   c7_unterminated_recovery c7Input 0 Kind.ifndef ("FOO".toList)
     (by decide) (by decide) (by decide)⟩

/-- Counterexample to claim C8 as stated: on an input using only the
OMITGOOD and OMITBAD conditions, the line x occurs nested inside an
OMITGOOD block and the same line text nevertheless appears in the output
of the filter under label bad, because the identical text also occurs
inside the OMITBAD block. -/
theorem c8_claim_counterexample :
    condsAmong [OMITGOODtok, OMITBADtok] (parse_preprocessor_blocks c8Input) = true ∧
    "x".toList ∈ insideCode OMITGOODtok (parse_preprocessor_blocks c8Input) ∧
    "x".toList ∈ filter_blocks (parse_preprocessor_blocks c8Input) Label.bad := by
  refine ⟨by decide, by decide, by decide⟩

/-- Claim C8 amended: said of line occurrences rather than line texts,
the two labels are disjoint — under label bad the filter emits no
occurrence from inside any OMITGOOD block, so every line of the bad
output occurs as a code line outside all OMITGOOD blocks, and
symmetrically every line of the good output occurs outside all OMITBAD
blocks; hence a line text all of whose occurrences lie inside OMITGOOD
blocks cannot appear in the bad output, and vice versa. -/
theorem c8_occurrence_disjoint (bs : List Block) (l : Line) :
    (l ∈ filter_blocks bs Label.bad → l ∈ outsideCode OMITGOODtok bs) ∧
    (l ∈ filter_blocks bs Label.good → l ∈ outsideCode OMITBADtok bs) :=
  ⟨filter_bad_outside bs l, filter_good_outside bs l⟩

/-- Witness for the amended claim C8 at a concrete input. -/
theorem c8_occurrence_disjoint_witness :
    ("x".toList ∈ filter_blocks (parse_preprocessor_blocks c8Input) Label.bad) ∧
    "x".toList ∈ outsideCode OMITGOODtok (parse_preprocessor_blocks c8Input) :=
  ⟨by decide,
   (c8_occurrence_disjoint (parse_preprocessor_blocks c8Input) ("x".toList)).1 (by decide)⟩

/-- Counterexample to claim C9 as stated: decoding the byte sequence
255, 97 with the ignore error handler used by process_file yields just
the letter a — the invalid byte is silently dropped and no substitute
character (code point 65533) is produced, contradicting the claim that
invalid bytes are replaced rather than dropped. -/
theorem c9_replacement_refuted :
    decodeUtf8Ignore [255, 97] = ['a'] ∧
    Char.ofNat 65533 ∉ decodeUtf8Ignore [255, 97] := by
  refine ⟨by decide, by decide⟩

/-- Claim C9 amended: reading never fails on undecodable input — the
decode is a total function — and an invalid byte such as 255, which can
never begin a UTF-8 sequence, is silently dropped from the decoded text,
leaving the decoding of the remaining bytes unchanged. -/
theorem c9_invalid_byte_skipped (bs : List Nat) :
    decodeUtf8Ignore (255 :: bs) = decodeUtf8Ignore bs := rfl

/-- Claim C10: a line whose stripped form begins with an endif directive
matches neither opener pattern, so when the parser cursor reaches it the
line becomes a plain code node and parsing continues at the next line;
the filter then emits such a code line verbatim, in order, under either
label. -/
theorem c10_stray_endif (lines : List Line) (i : Nat) (h : i < lines.length)
    (he : leadsWith endifTok (strip (lines.getD i [])) = true) :
    openerMatch (strip (lines.getD i [])) = none ∧
    parseFrom lines i = Block.code (lines.getD i []) i i :: parseFrom lines (i + 1) ∧
    ∀ (dt : Label) (bs : List Block),
      filter_blocks (Block.code (lines.getD i []) i i :: bs) dt
        = lines.getD i [] :: filter_blocks bs dt := by
  have hn := endif_not_opener _ he
  exact ⟨hn, parseFrom_code lines i h hn, fun dt bs => rfl⟩

/-- Witness for claim C10 at a concrete input starting with a stray
terminator line. -/
theorem c10_stray_endif_witness :
    (0 < c10Input.length ∧
     leadsWith endifTok (strip (c10Input.getD 0 [])) = true) ∧
    parseFrom c10Input 0 = Block.code (c10Input.getD 0 []) 0 0 :: parseFrom c10Input 1 :=
  ⟨⟨by decide, by decide⟩,
   (c10_stray_endif c10Input 0 (by decide) (by decide)).2.1⟩
